import Mathlib

/-!
Verification development for the TimerInterrupt_Generic repository.

The repository has two components: the soft-timer multiplexer (the core
scheduler of up to 16 logical timer slots serviced from one hardware tick)
and the per-platform hardware timer drivers.  The source tree available here
contains the ESP32-S2 hardware driver header and several example sketches
that call the multiplexer; the multiplexer implementation itself is not
among the available files, so the multiplexer is modelled from the
specification text and the hardware driver is embedded from its source.
-/

namespace SoftTimer

/-- Modelled from the spec: the multiplexer implementation (class ISR_Timer of
ISR_Timer_Generic.h) is not among the available source files, only its callers
are.  The per-slot kind, from section 3 of the spec:
run-once-after-delay, repeat-forever, repeat-N-times. -/
inductive TimerKind where
  | runOnce
  | repeatForever
  | repeatN
deriving DecidableEq, Repr

/-- Modelled from the spec: a control command that a callback may issue against
the multiplexer while it runs (spec sections 4.1 and 5: enable, disable,
delete and restart may be called from within callbacks during tick). -/
inductive Cmd where
  | enableT (id : Nat)
  | disableT (id : Nat)
  | deleteT (id : Nat)
  | restartT (id : Nat)
deriving DecidableEq, Repr

/-- Modelled from the spec: one logical timer slot (spec section 3).
The callback is represented by the list of control commands it issues when
invoked; its invocations themselves are recorded in the multiplexer log. -/
structure Slot where
  enabled : Bool
  period_ticks : Nat
  remaining_ticks : Nat
  remaining_invocations : Nat
  kind : TimerKind
  actions : List Cmd
deriving DecidableEq, Repr

/-- Modelled from the spec: the multiplexer state, a fixed table of up to 16
slots (a free slot is none) plus the observable log of callback invocations,
recorded as slot indices in dispatch order. -/
structure Mux where
  slots : List (Option Slot)
  log : List Nat
deriving DecidableEq, Repr

/-- Capacity of the slot table (spec section 3: capacity = 16). -/
def MAX_TIMERS : Nat := 16

/-- Modelled from the spec: the initial multiplexer with all 16 slots free. -/
def mkMux : Mux := ⟨List.replicate MAX_TIMERS none, []⟩

/-- The slot stored at index a, none when the index is free or out of range. -/
def slotAt (m : Mux) (a : Nat) : Option Slot := (m.slots[a]?).join

/-- Apply f to the live slot at index a; a no-op when the index is free or out
of range (spec section 7: control operations on an invalid slot id are
no-ops, not faults). -/
def modifySlot (m : Mux) (a : Nat) (f : Slot → Option Slot) : Mux :=
  match slotAt m a with
  | some s => { m with slots := m.slots.set a (f s) }
  | none => m

/-- Modelled from the spec: enable(slot_id) sets participation without losing
configuration (spec section 4.1). -/
def enableTimer (m : Mux) (a : Nat) : Mux :=
  modifySlot m a (fun s => some { s with enabled := true })

/-- Modelled from the spec: disable(slot_id) clears participation without
resetting remaining_ticks (spec section 4.1). -/
def disableTimer (m : Mux) (a : Nat) : Mux :=
  modifySlot m a (fun s => some { s with enabled := false })

/-- Modelled from the spec: delete(slot_id) marks the slot free; a no-op when
already free (spec section 4.1). -/
def deleteTimer (m : Mux) (a : Nat) : Mux :=
  modifySlot m a (fun _ => none)

/-- Modelled from the spec: restart(slot_id) resets remaining_ticks to
period_ticks without changing the enabled state (spec section 4.1). -/
def restartTimer (m : Mux) (a : Nat) : Mux :=
  modifySlot m a (fun s => some { s with remaining_ticks := s.period_ticks })

/-- Run one control command issued by a callback. -/
def applyCmd (m : Mux) : Cmd → Mux
  | .enableT a => enableTimer m a
  | .disableT a => disableTimer m a
  | .deleteT a => deleteTimer m a
  | .restartT a => restartTimer m a

/-- Run the command list of a callback, in order. -/
def applyCmds (m : Mux) (cs : List Cmd) : Mux := cs.foldl applyCmd m

/-- Modelled from the spec: the post-firing bookkeeping of tick (spec section
4.1): repeat-forever reloads the countdown; repeat-N-times decrements
remaining_invocations and either reloads or frees the exhausted slot (spec
section 3: the slot is marked free when the count reaches zero);
run-once-after-delay frees the slot after its single invocation. -/
def reload (m : Mux) (a : Nat) : Mux :=
  modifySlot m a (fun s =>
    match s.kind with
    | .repeatForever => some { s with remaining_ticks := s.period_ticks }
    | .repeatN =>
        if 0 < s.remaining_invocations - 1 then
          some { s with remaining_ticks := s.period_ticks,
                        remaining_invocations := s.remaining_invocations - 1 }
        else none
    | .runOnce => none)

/-- Modelled from the spec: processing of a single slot during tick (spec
section 4.1): for an enabled slot, decrement remaining_ticks; when it reaches
zero, invoke the callback synchronously (append the index to the log and run
the callback commands against the current state) and then perform the
post-firing bookkeeping on whatever now occupies the slot. -/
def tickSlot (m : Mux) (a : Nat) : Mux :=
  match slotAt m a with
  | none => m
  | some s =>
    if s.enabled then
      if s.remaining_ticks - 1 = 0 then
        reload
          (applyCmds
            { m with slots := m.slots.set a (some { s with remaining_ticks := 0 }),
                     log := m.log ++ [a] }
            s.actions) a
      else
        { m with slots := m.slots.set a (some { s with remaining_ticks := s.remaining_ticks - 1 }) }
    else m

/-- Modelled from the spec: tick() scans every slot in ascending index order
(spec section 4.1: dispatch order is slot-index order). -/
def tick (m : Mux) : Mux := (List.range MAX_TIMERS).foldl tickSlot m

/-- Iterated tick: the state after k hardware ticks. -/
def tickN (k : Nat) (m : Mux) : Mux := tick^[k] m

/-- Index of the first free slot, scanning from index 0. -/
def firstFreeAux : List (Option Slot) → Nat → Option Nat
  | [], _ => none
  | none :: _, k => some k
  | some _ :: rest, k => firstFreeAux rest (k + 1)

/-- Modelled from the spec: create allocates the first free slot (spec
section 3: lifecycle). -/
def firstFree (m : Mux) : Option Nat := firstFreeAux m.slots 0

/-- Modelled from the spec: create(period_ticks, callback, kind,
invocation_count) returns the allocated slot id, or the capacity-exhaustion
sentinel none when the table is full; on success the slot becomes enabled
immediately with remaining_ticks = period_ticks (spec section 4.1). -/
def setTimer (m : Mux) (p : Nat) (kd : TimerKind) (c : Nat) (acts : List Cmd) :
    Option Nat × Mux :=
  match firstFree m with
  | some i => (some i, { m with slots := m.slots.set i (some ⟨true, p, p, c, kd, acts⟩) })
  | none => (none, m)

/-- A freshly created repeat-forever slot of period p with an effect-free
callback. -/
def foreverSlot (p : Nat) : Slot := ⟨true, p, p, 0, .repeatForever, []⟩

/-- Create repeat-forever slots with the given periods, in order, starting
from the empty multiplexer (the setInterval pattern of the examples). -/
def createAll (ps : List Nat) : Mux :=
  ps.foldl (fun m p => (setTimer m p .repeatForever 0 []).2) mkMux

/-- Whether the slot attached to an index fires on the next tick: it is
enabled and its countdown is about to reach zero. -/
def firesOpt : Option Slot → Bool
  | none => false
  | some s => s.enabled && (s.remaining_ticks - 1 == 0)

/-- The evolution of one slot under one tick when no callback interferes
with it: the per-slot meaning of tickSlot. -/
def stepOpt : Option Slot → Option Slot
  | none => none
  | some s =>
    if s.enabled then
      if s.remaining_ticks - 1 = 0 then
        match s.kind with
        | .repeatForever => some { s with remaining_ticks := s.period_ticks }
        | .repeatN =>
            if 0 < s.remaining_invocations - 1 then
              some { s with remaining_ticks := s.period_ticks,
                            remaining_invocations := s.remaining_invocations - 1 }
            else none
        | .runOnce => none
      else some { s with remaining_ticks := s.remaining_ticks - 1 }
    else some s

/-- Number of firings of one isolated slot over k ticks. -/
def fireCount : Nat → Option Slot → Nat
  | 0, _ => 0
  | k + 1, o => (if firesOpt o then 1 else 0) + fireCount k (stepOpt o)

/-- Whether the callback attached to an index issues no commands (a free or
out-of-range index trivially qualifies). -/
def actionsEmptyO (o : Option Slot) : Bool := o.all (fun s => s.actions.isEmpty)

/-- Whether every callback registered in the multiplexer issues no commands:
the regime of claims that assume no disable or delete occurs during ticks. -/
def allEmpty (m : Mux) : Bool := m.slots.all (fun o => actionsEmptyO o)

/-- Invariant of one live slot: the period is positive, the countdown stays in
[1, period_ticks] between ticks, and a live repeat-N slot has at least one
invocation left. -/
def slotInv (s : Slot) : Prop :=
  1 ≤ s.period_ticks ∧ 1 ≤ s.remaining_ticks ∧ s.remaining_ticks ≤ s.period_ticks ∧
    (s.kind = .repeatN → 1 ≤ s.remaining_invocations)

instance (s : Slot) : Decidable (slotInv s) := by unfold slotInv; infer_instance

/-- Weakened slot invariant that tolerates a countdown of zero: the transient
state of the slot being dispatched while its callback runs. -/
def slotInvW (s : Slot) : Prop :=
  1 ≤ s.period_ticks ∧ s.remaining_ticks ≤ s.period_ticks ∧
    (s.kind = .repeatN → 1 ≤ s.remaining_invocations)

/-- Invariant of the whole multiplexer: every live slot satisfies slotInv. -/
def Inv (m : Mux) : Prop := ∀ a s, slotAt m a = some s → slotInv s

/-- Invariant holding everywhere except possibly at the slot being dispatched,
which satisfies only the weakened form. -/
def InvExc (m : Mux) (i : Nat) : Prop :=
  (∀ a s, a ≠ i → slotAt m a = some s → slotInv s) ∧
    (∀ s, slotAt m i = some s → slotInvW s)

/-- Reachable multiplexer states: the initial state, closed under create with
the constraints of spec section 4.1 (a positive period, and a positive
invocation count for repeat-N slots), the four control operations, and
tick. -/
inductive Reachable : Mux → Prop where
  | init : Reachable mkMux
  | create {m : Mux} {p c : Nat} {kd : TimerKind} {acts : List Cmd} :
      Reachable m → 1 ≤ p → (kd = .repeatN → 1 ≤ c) →
      Reachable (setTimer m p kd c acts).2
  | en {m : Mux} {a : Nat} : Reachable m → Reachable (enableTimer m a)
  | dis {m : Mux} {a : Nat} : Reachable m → Reachable (disableTimer m a)
  | del {m : Mux} {a : Nat} : Reachable m → Reachable (deleteTimer m a)
  | res {m : Mux} {a : Nat} : Reachable m → Reachable (restartTimer m a)
  | tk {m : Mux} : Reachable m → Reachable (tick m)

end SoftTimer

namespace ESP32

/-- Number of hardware timers per group (timer.h: TIMER_MAX = 2). -/
def TIMER_MAX : Nat := 2

/-- Number of ESP32-S2 hardware timers (ESP32_S2_TimerInterrupt.h line 159). -/
def MAX_ESP32_NUM_TIMERS : Nat := 4

/-- Input clock of the timer groups (APB clock, 80 MHz). -/
def TIMER_BASE_CLK : Nat := 80000000

/-- Hardware timer clock divider (ESP32_S2_TimerInterrupt.h line 161). -/
def TIMER_DIVIDER : Nat := 80

/-- Conversion factor from seconds to counter units
(ESP32_S2_TimerInterrupt.h line 163). -/
def TIMER_SCALE : Nat := TIMER_BASE_CLK / TIMER_DIVIDER

/-- The C cast (uint64_t) applied to a nonnegative rational value: truncation
toward zero, wrapped to 64 bits.  The cast of a negative value is undefined
in C; the model maps it to 0, a case no claim exercises. -/
def ratTruncToUInt64 (q : ℚ) : Nat :=
  (if q.num < 0 then 0 else q.num.toNat / q.den) % 2 ^ 64

/-- State of one ESP32TimerInterrupt object together with the hardware timer
registers its methods program (ESP32_S2_TimerInterrupt.h lines 202-355).
Frequencies are modelled as rationals standing for the C float values; the
registered callback is an abstract numeric identifier. -/
structure TimerState where
  timerNo : Nat
  timerIndex : Nat
  timerGroup : Nat
  callback : Option Nat
  frequency : ℚ
  timerCount : Nat
  counterValue : Nat
  alarmValue : ℚ
  intrEnabled : Bool
deriving DecidableEq, Repr

/-- Constructor ESP32TimerInterrupt(timerNo) (lines 228-244): a valid timer
number (0-3) is split into group and index; an invalid one is recorded as
MAX_ESP32_NUM_TIMERS, which makes every later setup call fail. -/
def mkTimer (tn : Nat) : TimerState :=
  if tn < MAX_ESP32_NUM_TIMERS then
    { timerNo := tn, timerIndex := tn % TIMER_MAX, timerGroup := tn / TIMER_MAX,
      callback := none, frequency := 0, timerCount := 0,
      counterValue := 0, alarmValue := 0, intrEnabled := false }
  else
    { timerNo := MAX_ESP32_NUM_TIMERS, timerIndex := 0, timerGroup := 0,
      callback := none, frequency := 0, timerCount := 0,
      counterValue := 0, alarmValue := 0, intrEnabled := false }

/-- setFrequency(frequency, callback) (lines 248-289): when the stored timer
number is valid, program the hardware (1 MHz base, counter cleared, alarm at
TIMER_SCALE / frequency, interrupt enabled, ISR registered) and return true;
otherwise return false and change nothing.  The requested frequency is never
range-checked. -/
def setFrequency (t : TimerState) (freq : ℚ) (cb : Nat) : Bool × TimerState :=
  if t.timerNo < MAX_ESP32_NUM_TIMERS then
    (true,
      { t with
        frequency := (TIMER_BASE_CLK : ℚ) / (TIMER_DIVIDER : ℚ),
        timerCount := ratTruncToUInt64 (((TIMER_BASE_CLK : ℚ) / (TIMER_DIVIDER : ℚ)) / freq),
        counterValue := 0,
        alarmValue := (TIMER_SCALE : ℚ) / freq,
        callback := some cb,
        intrEnabled := true })
  else
    (false, t)

/-- setInterval(interval, callback) (lines 293-296): delegates to
setFrequency(1000000.0f / interval, callback). -/
def setInterval (t : TimerState) (interval : Nat) (cb : Nat) : Bool × TimerState :=
  setFrequency t ((1000000 : ℚ) / (interval : ℚ)) cb

/-- attachInterrupt(frequency, callback) (lines 298-301): delegates to
setFrequency(frequency, callback). -/
def attachInterrupt (t : TimerState) (freq : ℚ) (cb : Nat) : Bool × TimerState :=
  setFrequency t freq cb

/-- attachInterruptInterval(interval, callback) (lines 305-308): delegates to
setFrequency(1000000.0f / interval, callback). -/
def attachInterruptInterval (t : TimerState) (interval : Nat) (cb : Nat) : Bool × TimerState :=
  setFrequency t ((1000000 : ℚ) / (interval : ℚ)) cb

end ESP32

namespace SoftTimer

theorem slotAt_entry {m : Mux} {a : Nat} {s : Slot} :
    slotAt m a = some s ↔ m.slots[a]? = some (some s) := by
  unfold slotAt; exact Option.join_eq_some

theorem lt_length_of_slotAt {m : Mux} {a : Nat} {s : Slot} (h : slotAt m a = some s) :
    a < m.slots.length :=
  (List.getElem?_eq_some.mp (slotAt_entry.mp h)).1

theorem modifySlot_log (m : Mux) (a : Nat) (f : Slot → Option Slot) :
    (modifySlot m a f).log = m.log := by
  unfold modifySlot; split <;> rfl

theorem modifySlot_length (m : Mux) (a : Nat) (f : Slot → Option Slot) :
    (modifySlot m a f).slots.length = m.slots.length := by
  unfold modifySlot; split <;> simp

theorem slotAt_modifySlot_ne (m : Mux) (a b : Nat) (f : Slot → Option Slot) (h : a ≠ b) :
    slotAt (modifySlot m a f) b = slotAt m b := by
  unfold modifySlot; split
  · show slotAt { m with slots := m.slots.set a _ } b = slotAt m b
    unfold slotAt
    rw [show ({ m with slots := m.slots.set a _ } : Mux).slots = m.slots.set a _ from rfl,
      List.getElem?_set_ne h]
  · rfl

theorem slotAt_modifySlot_self {m : Mux} {a : Nat} {s : Slot} (f : Slot → Option Slot)
    (h : slotAt m a = some s) : slotAt (modifySlot m a f) a = f s := by
  have hlt : a < m.slots.length := lt_length_of_slotAt h
  unfold modifySlot
  rw [h]
  show slotAt { m with slots := m.slots.set a (f s) } a = f s
  unfold slotAt
  rw [show ({ m with slots := m.slots.set a (f s) } : Mux).slots = m.slots.set a (f s) from rfl,
    List.getElem?_set_eq_of_lt _ (by simpa using hlt)]
  rfl

theorem slotAt_modifySlot_none {m : Mux} {a : Nat} (f : Slot → Option Slot)
    (h : slotAt m a = none) : modifySlot m a f = m := by
  unfold modifySlot; rw [h]

end SoftTimer

namespace SoftTimer

theorem applyCmd_log (m : Mux) (c : Cmd) : (applyCmd m c).log = m.log := by
  cases c <;> simp [applyCmd, enableTimer, disableTimer, deleteTimer, restartTimer, modifySlot_log]

theorem applyCmds_log (cs : List Cmd) : ∀ m : Mux, (applyCmds m cs).log = m.log := by
  induction cs with
  | nil => intro m; rfl
  | cons c cs ih =>
      intro m
      show (applyCmds (applyCmd m c) cs).log = m.log
      rw [ih, applyCmd_log]

theorem reload_log (m : Mux) (a : Nat) : (reload m a).log = m.log := modifySlot_log ..

theorem tickSlot_log (m : Mux) (a : Nat) :
    (tickSlot m a).log = m.log ++ (if firesOpt (slotAt m a) then [a] else []) := by
  unfold tickSlot
  cases h : slotAt m a with
  | none => simp [firesOpt]
  | some s =>
      by_cases he : s.enabled
      · by_cases hr : s.remaining_ticks - 1 = 0
        · simp only [he, hr, if_true, reload_log, applyCmds_log]
          simp [firesOpt, he, hr]
        · simp only [he, hr, if_true, if_false]
          simp [firesOpt, he, hr]
      · simp [he, firesOpt]

end SoftTimer

namespace SoftTimer

theorem join_set_self (l : List (Option Slot)) (a : Nat) (o : Option Slot)
    (h : a < l.length) : ((l.set a o)[a]?).join = o := by
  rw [List.getElem?_set_eq_of_lt _ h]; rfl

theorem modifySlot_getElem_ne (m : Mux) (a b : Nat) (f : Slot → Option Slot) (h : a ≠ b) :
    (modifySlot m a f).slots[b]? = m.slots[b]? := by
  unfold modifySlot; split
  · exact List.getElem?_set_ne h
  · rfl

theorem applyCmd_length (m : Mux) (c : Cmd) : (applyCmd m c).slots.length = m.slots.length := by
  cases c <;>
    simp [applyCmd, enableTimer, disableTimer, deleteTimer, restartTimer, modifySlot_length]

theorem applyCmds_length (cs : List Cmd) : ∀ m : Mux, (applyCmds m cs).slots.length = m.slots.length := by
  induction cs with
  | nil => intro m; rfl
  | cons c cs ih =>
      intro m
      show (applyCmds (applyCmd m c) cs).slots.length = m.slots.length
      rw [ih, applyCmd_length]

theorem tickSlot_length (m : Mux) (a : Nat) : (tickSlot m a).slots.length = m.slots.length := by
  unfold tickSlot
  cases h : slotAt m a with
  | none => rfl
  | some s =>
      by_cases he : s.enabled
      · by_cases hr : s.remaining_ticks - 1 = 0
        · simp only [he, hr, if_true]
          rw [reload, modifySlot_length, applyCmds_length]
          simp
        · simp only [he, hr, if_true, if_false]
          simp
      · simp [he]

theorem actions_empty_of (s : Slot) (h : actionsEmptyO (some s) = true) : s.actions = [] := by
  simpa [actionsEmptyO] using h

theorem tickSlot_frame (m : Mux) (a b : Nat) (hab : a ≠ b)
    (hae : actionsEmptyO (slotAt m a) = true) :
    (tickSlot m a).slots[b]? = m.slots[b]? := by
  unfold tickSlot
  cases h : slotAt m a with
  | none => rfl
  | some s =>
      rw [h] at hae
      have hact : s.actions = [] := actions_empty_of s hae
      by_cases he : s.enabled
      · by_cases hr : s.remaining_ticks - 1 = 0
        · simp only [he, hr, if_true, hact]
          show (reload (applyCmds _ []) a).slots[b]? = _
          rw [show ∀ m' : Mux, applyCmds m' [] = m' from fun _ => rfl]
          rw [reload, modifySlot_getElem_ne _ _ _ _ hab]
          exact List.getElem?_set_ne hab
        · simp only [he, hr, if_true, if_false]
          exact List.getElem?_set_ne hab
      · simp [he]

end SoftTimer

namespace SoftTimer

theorem slotAt_mk_set (l : List (Option Slot)) (lg : List Nat) (a : Nat) (o : Option Slot)
    (h : a < l.length) : slotAt ⟨l.set a o, lg⟩ a = o :=
  join_set_self l a o h

end SoftTimer

namespace SoftTimer

theorem tickSlot_step (m : Mux) (a : Nat) (hae : actionsEmptyO (slotAt m a) = true) :
    slotAt (tickSlot m a) a = stepOpt (slotAt m a) := by
  unfold tickSlot
  cases h : slotAt m a with
  | none => rw [show slotAt m a = none from h]; rfl
  | some s =>
      obtain ⟨en, p, r, n, kd, acts⟩ := s
      rw [h] at hae
      have hact : acts = [] := actions_empty_of _ hae
      subst hact
      have hlt : a < m.slots.length := lt_length_of_slotAt h
      cases en with
      | false => exact h
      | true =>
          dsimp only
          rw [if_pos (rfl : (true : Bool) = true)]
          by_cases hr : r - 1 = 0
          · rw [if_pos hr]
            rw [show ∀ m' : Mux, applyCmds m' [] = m' from fun _ => rfl]
            unfold reload
            rw [slotAt_modifySlot_self _ (slotAt_mk_set m.slots (m.log ++ [a]) a
              (some ⟨true, p, 0, n, kd, []⟩) hlt)]
            simp only [stepOpt, if_true]
            rw [if_pos hr]
          · rw [if_neg hr]
            rw [slotAt_mk_set m.slots m.log a (some ⟨true, p, r - 1, n, kd, []⟩) hlt]
            simp only [stepOpt, if_true]
            rw [if_neg hr]

end SoftTimer

namespace SoftTimer

theorem actionsEmptyO_stepOpt (o : Option Slot) (h : actionsEmptyO o = true) :
    actionsEmptyO (stepOpt o) = true := by
  cases o with
  | none => rfl
  | some s =>
      obtain ⟨en, p, r, n, kd, acts⟩ := s
      cases en with
      | false => exact h
      | true =>
          dsimp only [stepOpt]
          rw [if_pos (rfl : (true : Bool) = true)]
          by_cases hr : r - 1 = 0
          · rw [if_pos hr]
            cases kd with
            | runOnce => rfl
            | repeatForever => exact h
            | repeatN =>
                by_cases hn : 0 < n - 1
                · rw [if_pos hn]; exact h
                · rw [if_neg hn]; rfl
          · rw [if_neg hr]; exact h

theorem foldl_tickSlot : ∀ (l : List Nat) (m : Mux), l.Nodup →
    (∀ a ∈ l, actionsEmptyO (slotAt m a) = true) →
    (∀ b, b ∉ l → (l.foldl tickSlot m).slots[b]? = m.slots[b]?)
    ∧ (∀ a ∈ l, slotAt (l.foldl tickSlot m) a = stepOpt (slotAt m a))
    ∧ (l.foldl tickSlot m).log = m.log ++ l.filter (fun a => firesOpt (slotAt m a)) := by
  intro l
  induction l with
  | nil =>
      intro m _ _
      exact ⟨fun b _ => rfl, fun a ha => absurd ha (List.not_mem_nil a), by simp⟩
  | cons c l ih =>
      intro m hnd hact
      have hndl : l.Nodup := (List.nodup_cons.mp hnd).2
      have hcl : c ∉ l := (List.nodup_cons.mp hnd).1
      have hc : actionsEmptyO (slotAt m c) = true := hact c (List.mem_cons_self c l)
      have hframe : ∀ b, b ≠ c → (tickSlot m c).slots[b]? = m.slots[b]? :=
        fun b hb => tickSlot_frame m c b (Ne.symm hb) hc
      have hslotAt_frame : ∀ b, b ≠ c → slotAt (tickSlot m c) b = slotAt m b := fun b hb => by
        unfold slotAt; rw [hframe b hb]
      have hactl : ∀ a ∈ l, actionsEmptyO (slotAt (tickSlot m c) a) = true := fun a hal => by
        rw [hslotAt_frame a (fun e => hcl (e ▸ hal))]
        exact hact a (List.mem_cons_of_mem c hal)
      obtain ⟨f1, f2, f3⟩ := ih (tickSlot m c) hndl hactl
      refine ⟨?_, ?_, ?_⟩
      · intro b hb
        have hbc : b ≠ c := fun e => hb (e ▸ List.mem_cons_self c l)
        have hbl : b ∉ l := fun e => hb (List.mem_cons_of_mem c e)
        rw [List.foldl_cons, f1 b hbl, hframe b hbc]
      · intro a ha
        rcases List.mem_cons.mp ha with rfl | hal
        · rw [List.foldl_cons]
          show ((l.foldl tickSlot (tickSlot m a)).slots[a]?).join = _
          rw [f1 a hcl]
          exact tickSlot_step m a hc
        · rw [List.foldl_cons, f2 a hal, hslotAt_frame a (fun e => hcl (e ▸ hal))]
      · rw [List.foldl_cons, f3, tickSlot_log]
        have hfc : l.filter (fun a => firesOpt (slotAt (tickSlot m c) a))
            = l.filter (fun a => firesOpt (slotAt m a)) :=
          List.filter_congr (fun a hal => by rw [hslotAt_frame a (fun e => hcl (e ▸ hal))])
        rw [hfc, List.append_assoc]
        congr 1
        by_cases hf : firesOpt (slotAt m c) = true
        · rw [if_pos hf]; simp [List.filter_cons, hf]
        · rw [if_neg hf]; simp [List.filter_cons, hf]

end SoftTimer

namespace SoftTimer

theorem allEmpty_iff (m : Mux) : allEmpty m = true ↔ ∀ a, actionsEmptyO (slotAt m a) = true := by
  constructor
  · intro h a
    cases ho : m.slots[a]? with
    | none =>
        rw [show slotAt m a = none from by simp [slotAt, ho]]
        rfl
    | some o =>
        rw [show slotAt m a = o from by simp [slotAt, ho]]
        exact (List.all_eq_true.mp h) o (List.getElem?_mem ho)
  · intro h
    refine List.all_eq_true.mpr (fun o ho => ?_)
    obtain ⟨i, hi, rfl⟩ := List.getElem_of_mem ho
    have hsl : slotAt m i = m.slots[i] := by
      simp [slotAt, List.getElem?_eq_getElem hi]
    have := h i
    rw [hsl] at this
    exact this

theorem tick_slotAt (m : Mux) (h : allEmpty m = true) (a : Nat) (ha : a < MAX_TIMERS) :
    slotAt (tick m) a = stepOpt (slotAt m a) :=
  (foldl_tickSlot (List.range MAX_TIMERS) m (List.nodup_range _)
    (fun x _ => (allEmpty_iff m).mp h x)).2.1 a (List.mem_range.mpr ha)

theorem tick_slot_frame (m : Mux) (h : allEmpty m = true) (a : Nat) (ha : MAX_TIMERS ≤ a) :
    slotAt (tick m) a = slotAt m a := by
  unfold slotAt tick
  rw [(foldl_tickSlot (List.range MAX_TIMERS) m (List.nodup_range _)
    (fun x _ => (allEmpty_iff m).mp h x)).1 a (by simpa using Nat.not_lt.mpr ha)]

theorem tick_log (m : Mux) (h : allEmpty m = true) :
    (tick m).log = m.log ++ (List.range MAX_TIMERS).filter (fun a => firesOpt (slotAt m a)) :=
  (foldl_tickSlot (List.range MAX_TIMERS) m (List.nodup_range _)
    (fun x _ => (allEmpty_iff m).mp h x)).2.2

theorem allEmpty_tick (m : Mux) (h : allEmpty m = true) : allEmpty (tick m) = true := by
  rw [allEmpty_iff]
  intro a
  by_cases ha : a < MAX_TIMERS
  · rw [tick_slotAt m h a ha]
    exact actionsEmptyO_stepOpt _ ((allEmpty_iff m).mp h a)
  · rw [tick_slot_frame m h a (Nat.not_lt.mp ha)]
    exact (allEmpty_iff m).mp h a

theorem count_filter_nodup (l : List Nat) (hl : l.Nodup) (p : Nat → Bool) (a : Nat) :
    (l.filter p).count a = if a ∈ l ∧ p a = true then 1 else 0 := by
  by_cases hp : p a = true
  · rw [List.count_filter hp]
    by_cases hm : a ∈ l
    · rw [if_pos ⟨hm, hp⟩]
      exact List.count_eq_one_of_mem hl hm
    · rw [if_neg (fun hc => hm hc.1)]
      exact List.count_eq_zero_of_not_mem hm
  · have hnm : a ∉ l.filter p := fun hmem => hp (List.of_mem_filter hmem)
    rw [List.count_eq_zero_of_not_mem hnm, if_neg (fun hc => hp hc.2)]

theorem tick_count (m : Mux) (h : allEmpty m = true) (b : Nat) :
    (tick m).log.count b
      = m.log.count b + (if b < MAX_TIMERS ∧ firesOpt (slotAt m b) = true then 1 else 0) := by
  rw [tick_log m h, List.count_append,
    count_filter_nodup _ (List.nodup_range _) _ b]
  congr 1
  by_cases hb : b < MAX_TIMERS
  · simp [List.mem_range, hb]
  · simp [List.mem_range, hb]

theorem tickN_slotAt (k : Nat) : ∀ m : Mux, allEmpty m = true → ∀ a, a < MAX_TIMERS →
    slotAt (tickN k m) a = stepOpt^[k] (slotAt m a) := by
  induction k with
  | zero => intro m _ a _; rfl
  | succ k ih =>
      intro m h a ha
      rw [show tickN (k + 1) m = tickN k (tick m) from Function.iterate_succ_apply tick k m,
        ih (tick m) (allEmpty_tick m h) a ha, tick_slotAt m h a ha,
        Function.iterate_succ_apply stepOpt k (slotAt m a)]

theorem allEmpty_tickN (k : Nat) : ∀ m : Mux, allEmpty m = true → allEmpty (tickN k m) = true := by
  induction k with
  | zero => intro m h; exact h
  | succ k ih =>
      intro m h
      rw [show tickN (k + 1) m = tickN k (tick m) from Function.iterate_succ_apply tick k m]
      exact ih (tick m) (allEmpty_tick m h)

theorem tickN_count (k : Nat) : ∀ m : Mux, allEmpty m = true → ∀ a, a < MAX_TIMERS →
    (tickN k m).log.count a = m.log.count a + fireCount k (slotAt m a) := by
  induction k with
  | zero => intro m _ a _; rfl
  | succ k ih =>
      intro m h a ha
      rw [show tickN (k + 1) m = tickN k (tick m) from Function.iterate_succ_apply tick k m,
        ih (tick m) (allEmpty_tick m h) a ha, tick_count m h a, tick_slotAt m h a ha]
      show _ = m.log.count a + ((if firesOpt (slotAt m a) = true then 1 else 0)
        + fireCount k (stepOpt (slotAt m a)))
      have : (if a < MAX_TIMERS ∧ firesOpt (slotAt m a) = true then 1 else 0)
          = (if firesOpt (slotAt m a) = true then 1 else 0) := by
        by_cases hf : firesOpt (slotAt m a) = true
        · rw [if_pos ⟨ha, hf⟩, if_pos hf]
        · rw [if_neg (fun hc => hf hc.2), if_neg hf]
      rw [this, Nat.add_assoc]

end SoftTimer

namespace SoftTimer

theorem fireCount_succ (k : Nat) (o : Option Slot) :
    fireCount (k + 1) o = (if firesOpt o then 1 else 0) + fireCount k (stepOpt o) := rfl

theorem forever_iter (k : Nat) : ∀ s : Slot, s.enabled = true → s.kind = .repeatForever →
    1 ≤ s.remaining_ticks → s.remaining_ticks ≤ s.period_ticks →
    stepOpt^[k] (some s)
      = some { s with remaining_ticks :=
          s.period_ticks - ((k + (s.period_ticks - s.remaining_ticks)) % s.period_ticks) }
    ∧ fireCount k (some s) = (k + (s.period_ticks - s.remaining_ticks)) / s.period_ticks := by
  induction k with
  | zero =>
      intro s he hk h1 h2
      constructor
      · have e1 : s.period_ticks - ((0 + (s.period_ticks - s.remaining_ticks)) % s.period_ticks)
            = s.remaining_ticks := by
          have hlt : s.period_ticks - s.remaining_ticks < s.period_ticks := by omega
          rw [Nat.zero_add, Nat.mod_eq_of_lt hlt]
          omega
        rw [e1]
        rfl
      · have hlt : 0 + (s.period_ticks - s.remaining_ticks) < s.period_ticks := by omega
        rw [Nat.div_eq_of_lt hlt]
        rfl
  | succ k ih =>
      intro s he hk h1 h2
      have hstep : stepOpt^[k + 1] (some s) = stepOpt^[k] (stepOpt (some s)) :=
        Function.iterate_succ_apply stepOpt k (some s)
      by_cases hr : s.remaining_ticks = 1
      · have hf : firesOpt (some s) = true := by simp [firesOpt, he, hr]
        have hso : stepOpt (some s) = some { s with remaining_ticks := s.period_ticks } := by
          simp [stepOpt, he, hr, hk]
        obtain ⟨ihs, ihf⟩ := ih { s with remaining_ticks := s.period_ticks } he hk
          (show 1 ≤ s.period_ticks by omega) (show s.period_ticks ≤ s.period_ticks from Nat.le_refl _)
        have e1 : (k + (s.period_ticks - s.period_ticks)) % s.period_ticks
            = k % s.period_ticks := by rw [Nat.sub_self, Nat.add_zero]
        have e2 : (k + 1 + (s.period_ticks - s.remaining_ticks)) % s.period_ticks
            = k % s.period_ticks := by
          have e : k + 1 + (s.period_ticks - s.remaining_ticks) = k + s.period_ticks := by omega
          rw [e, Nat.add_mod_right]
        constructor
        · rw [hstep, hso, ihs]
          show some _ = some _
          rw [show ({ s with remaining_ticks := s.period_ticks } : Slot).period_ticks
            = s.period_ticks from rfl, e1, e2]
        · rw [fireCount_succ, hf, if_pos rfl, hso, ihf]
          rw [show ({ s with remaining_ticks := s.period_ticks } : Slot).period_ticks
            = s.period_ticks from rfl]
          rw [Nat.sub_self, Nat.add_zero]
          have e3 : k + 1 + (s.period_ticks - s.remaining_ticks) = k + s.period_ticks := by omega
          rw [e3, Nat.add_div_right _ (by omega : 0 < s.period_ticks)]
          omega
      · have hr2 : ¬(s.remaining_ticks - 1 = 0) := by omega
        have hf : firesOpt (some s) = false := by
          simp [firesOpt, he]
          omega
        have hso : stepOpt (some s)
            = some { s with remaining_ticks := s.remaining_ticks - 1 } := by
          simp [stepOpt, he, hr2]
        obtain ⟨ihs, ihf⟩ := ih { s with remaining_ticks := s.remaining_ticks - 1 } he hk
          (show 1 ≤ s.remaining_ticks - 1 by omega)
          (show s.remaining_ticks - 1 ≤ s.period_ticks by omega)
        have e : k + (s.period_ticks - (s.remaining_ticks - 1))
            = k + 1 + (s.period_ticks - s.remaining_ticks) := by omega
        constructor
        · rw [hstep, hso, ihs]
          show some _ = some _
          rw [show ({ s with remaining_ticks := s.remaining_ticks - 1 } : Slot).period_ticks
            = s.period_ticks from rfl,
            show ({ s with remaining_ticks := s.remaining_ticks - 1 } : Slot).remaining_ticks
            = s.remaining_ticks - 1 from rfl, e]
        · rw [fireCount_succ, hf, if_neg (by simp), hso, ihf]
          rw [show ({ s with remaining_ticks := s.remaining_ticks - 1 } : Slot).period_ticks
            = s.period_ticks from rfl,
            show ({ s with remaining_ticks := s.remaining_ticks - 1 } : Slot).remaining_ticks
            = s.remaining_ticks - 1 from rfl, e]
          omega

end SoftTimer

namespace SoftTimer

theorem iterate_stepOpt_none (k : Nat) : stepOpt^[k] none = none := by
  induction k with
  | zero => rfl
  | succ k ih => rw [Function.iterate_succ_apply, show stepOpt none = none from rfl, ih]

theorem fireCount_none (k : Nat) : fireCount k none = 0 := by
  induction k with
  | zero => rfl
  | succ k ih =>
      rw [fireCount_succ, show stepOpt none = none from rfl, ih,
        show firesOpt none = false from rfl, if_neg (by simp)]

theorem repeatN_iter (k : Nat) : ∀ s : Slot, s.enabled = true → s.kind = .repeatN →
    1 ≤ s.remaining_ticks → s.remaining_ticks ≤ s.period_ticks → 1 ≤ s.remaining_invocations →
    stepOpt^[k] (some s)
      = (if (k + (s.period_ticks - s.remaining_ticks)) / s.period_ticks < s.remaining_invocations
        then some { s with
          remaining_ticks :=
            s.period_ticks - ((k + (s.period_ticks - s.remaining_ticks)) % s.period_ticks),
          remaining_invocations :=
            s.remaining_invocations - (k + (s.period_ticks - s.remaining_ticks)) / s.period_ticks }
        else none)
    ∧ fireCount k (some s)
        = min ((k + (s.period_ticks - s.remaining_ticks)) / s.period_ticks)
            s.remaining_invocations := by
  induction k with
  | zero =>
      intro s he hk h1 h2 hn
      have hlt : 0 + (s.period_ticks - s.remaining_ticks) < s.period_ticks := by omega
      constructor
      · rw [if_pos (by rw [Nat.div_eq_of_lt hlt]; omega)]
        rw [Nat.div_eq_of_lt hlt, Nat.zero_add, Nat.mod_eq_of_lt (by omega)]
        rw [show s.period_ticks - (s.period_ticks - s.remaining_ticks) = s.remaining_ticks by omega,
          Nat.sub_zero]
        rfl
      · rw [Nat.div_eq_of_lt hlt]
        rw [show min 0 s.remaining_invocations = 0 from Nat.zero_min _]
        rfl
  | succ k ih =>
      intro s he hk h1 h2 hn
      have hstep : stepOpt^[k + 1] (some s) = stepOpt^[k] (stepOpt (some s)) :=
        Function.iterate_succ_apply stepOpt k (some s)
      have hp1 : 1 ≤ s.period_ticks := by omega
      by_cases hr : s.remaining_ticks = 1
      · have hf : firesOpt (some s) = true := by simp [firesOpt, he, hr]
        have ed : k + 1 + (s.period_ticks - s.remaining_ticks) = k + s.period_ticks := by omega
        have ediv : (k + s.period_ticks) / s.period_ticks = k / s.period_ticks + 1 :=
          Nat.add_div_right _ (by omega)
        have emod : (k + s.period_ticks) % s.period_ticks = k % s.period_ticks :=
          Nat.add_mod_right _ _
        by_cases hone : s.remaining_invocations = 1
        · have hso : stepOpt (some s) = none := by
            simp [stepOpt, he, hr, hk, hone]
          constructor
          · rw [hstep, hso, iterate_stepOpt_none, ed, ediv,
              if_neg (show ¬(k / s.period_ticks + 1 < s.remaining_invocations) from by
                rw [hone]; exact Nat.not_lt.mpr (Nat.le_add_left 1 _))]
          · rw [fireCount_succ, hf, if_pos rfl, hso, fireCount_none, ed, ediv, hone,
              Nat.min_eq_right (Nat.le_add_left 1 _)]
        · have hngt : 0 < s.remaining_invocations - 1 := by omega
          have hso : stepOpt (some s) = some { s with remaining_ticks := s.period_ticks, remaining_invocations := s.remaining_invocations - 1 } := by
            simp [stepOpt, he, hr, hk, hngt]
          obtain ⟨ihs, ihf⟩ := ih { s with remaining_ticks := s.period_ticks, remaining_invocations := s.remaining_invocations - 1 } he hk
            (show 1 ≤ s.period_ticks by omega)
            (show s.period_ticks ≤ s.period_ticks from Nat.le_refl _)
            (show 1 ≤ s.remaining_invocations - 1 by omega)
          constructor
          · rw [hstep, hso, ihs]
            dsimp only
            rw [Nat.sub_self, Nat.add_zero, ed, ediv, emod]
            by_cases hq : k / s.period_ticks < s.remaining_invocations - 1
            · rw [if_pos hq, if_pos (by omega)]
              rw [show s.remaining_invocations - 1 - k / s.period_ticks
                = s.remaining_invocations - (k / s.period_ticks + 1) by omega]
            · rw [if_neg hq, if_neg (by omega)]
          · rw [fireCount_succ, hf, if_pos rfl, hso, ihf]
            dsimp only
            rw [Nat.sub_self, Nat.add_zero, ed, ediv]
            omega
      · have hr2 : ¬(s.remaining_ticks - 1 = 0) := by omega
        have hf : firesOpt (some s) = false := by
          simp [firesOpt, he]
          omega
        have hso : stepOpt (some s)
            = some { s with remaining_ticks := s.remaining_ticks - 1 } := by
          simp [stepOpt, he, hr2]
        obtain ⟨ihs, ihf⟩ := ih { s with remaining_ticks := s.remaining_ticks - 1 } he hk
          (show 1 ≤ s.remaining_ticks - 1 by omega)
          (show s.remaining_ticks - 1 ≤ s.period_ticks by omega)
          hn
        have e : k + (s.period_ticks - (s.remaining_ticks - 1))
            = k + 1 + (s.period_ticks - s.remaining_ticks) := by omega
        constructor
        · rw [hstep, hso, ihs]
          dsimp only
          rw [e]
        · rw [fireCount_succ, hf, if_neg (by simp), hso, ihf]
          dsimp only
          rw [e, Nat.zero_add]

end SoftTimer

namespace SoftTimer

theorem slotAt_mkMux (a : Nat) : slotAt mkMux a = none := by
  unfold slotAt mkMux
  rw [List.getElem?_replicate]
  split <;> rfl

theorem InvExc_modify (m : Mux) (i a : Nat) (f : Slot → Option Slot) (hm : InvExc m i)
    (hf : ∀ s, slotInv s → ∀ t, f s = some t → slotInv t)
    (hfW : ∀ s, slotInvW s → ∀ t, f s = some t → slotInvW t) : InvExc (modifySlot m a f) i := by
  cases hs : slotAt m a with
  | none => rw [slotAt_modifySlot_none f hs]; exact hm
  | some s =>
      constructor
      · intro b s' hbi hb
        by_cases hba : b = a
        · subst hba
          rw [slotAt_modifySlot_self f hs] at hb
          exact hf s (hm.1 b s hbi hs) s' hb
        · rw [slotAt_modifySlot_ne m a b f (fun e => hba e.symm)] at hb
          exact hm.1 b s' hbi hb
      · intro s' hb
        by_cases hia : i = a
        · subst hia
          rw [slotAt_modifySlot_self f hs] at hb
          exact hfW s (hm.2 s hs) s' hb
        · rw [slotAt_modifySlot_ne m a i f (fun e => hia e.symm)] at hb
          exact hm.2 s' hb

theorem Inv_of_InvExc_none (m : Mux) (i : Nat) (hm : InvExc m i) (hi : slotAt m i = none) :
    Inv m := by
  intro b s hb
  by_cases hbi : b = i
  · subst hbi; rw [hi] at hb; cases hb
  · exact hm.1 b s hbi hb

theorem InvExc_of_Inv (m : Mux) (i : Nat) (hm : Inv m) : InvExc m i :=
  ⟨fun b s _ hb => hm b s hb, fun s hb => by
    have h := hm i s hb
    exact ⟨h.1, h.2.2.1, h.2.2.2⟩⟩

theorem applyCmd_InvExc (m : Mux) (i : Nat) (c : Cmd) (hm : InvExc m i) :
    InvExc (applyCmd m c) i := by
  cases c with
  | enableT a =>
      exact InvExc_modify m i a _ hm
        (fun s hs t ht => Option.some.inj ht ▸ (show slotInv { s with enabled := true } from hs))
        (fun s hs t ht => Option.some.inj ht ▸ (show slotInvW { s with enabled := true } from hs))
  | disableT a =>
      exact InvExc_modify m i a _ hm
        (fun s hs t ht => Option.some.inj ht ▸ (show slotInv { s with enabled := false } from hs))
        (fun s hs t ht => Option.some.inj ht ▸ (show slotInvW { s with enabled := false } from hs))
  | deleteT a =>
      exact InvExc_modify m i a _ hm
        (fun _ _ t ht => Option.noConfusion ht)
        (fun _ _ t ht => Option.noConfusion ht)
  | restartT a =>
      exact InvExc_modify m i a _ hm
        (fun s hs t ht => Option.some.inj ht ▸
          (show slotInv { s with remaining_ticks := s.period_ticks } from
            ⟨hs.1, hs.1, Nat.le_refl _, hs.2.2.2⟩))
        (fun s hs t ht => Option.some.inj ht ▸
          (show slotInvW { s with remaining_ticks := s.period_ticks } from
            ⟨hs.1, Nat.le_refl _, hs.2.2⟩))

theorem applyCmds_InvExc (cs : List Cmd) : ∀ (m : Mux) (i : Nat), InvExc m i →
    InvExc (applyCmds m cs) i := by
  induction cs with
  | nil => intro m i hm; exact hm
  | cons c cs ih =>
      intro m i hm
      exact ih (applyCmd m c) i (applyCmd_InvExc m i c hm)

theorem Inv_reload (m : Mux) (a : Nat) (hm : InvExc m a) : Inv (reload m a) := by
  cases hs : slotAt m a with
  | none =>
      rw [show reload m a = m from slotAt_modifySlot_none _ hs]
      exact Inv_of_InvExc_none m a hm hs
  | some s =>
      have hW : slotInvW s := hm.2 s hs
      intro b s' hb
      by_cases hba : b = a
      · subst hba
        rw [show reload m b = modifySlot m b _ from rfl, slotAt_modifySlot_self _ hs] at hb
        cases hk : s.kind with
        | repeatForever =>
            rw [hk] at hb
            cases Option.some.inj hb
            exact ⟨hW.1, hW.1, Nat.le_refl _, fun h => TimerKind.noConfusion h⟩
        | repeatN =>
            rw [hk] at hb
            by_cases hn : 0 < s.remaining_invocations - 1
            · rw [if_pos hn] at hb
              cases Option.some.inj hb
              exact ⟨hW.1, hW.1, Nat.le_refl _, fun _ => hn⟩
            · rw [if_neg hn] at hb
              cases hb
        | runOnce =>
            rw [hk] at hb
            cases hb
      · rw [show reload m a = modifySlot m a _ from rfl,
          slotAt_modifySlot_ne m a b _ (fun e => hba e.symm)] at hb
        exact hm.1 b s' hba hb

end SoftTimer

namespace SoftTimer

theorem Inv_tickSlot (m : Mux) (a : Nat) (hm : Inv m) : Inv (tickSlot m a) := by
  unfold tickSlot
  cases hs : slotAt m a with
  | none => exact hm
  | some s =>
      have hsv : slotInv s := hm a s hs
      have hlt : a < m.slots.length := lt_length_of_slotAt hs
      dsimp only
      by_cases he : s.enabled = true
      · rw [if_pos he]
        by_cases hr : s.remaining_ticks - 1 = 0
        · rw [if_pos hr]
          apply Inv_reload
          apply applyCmds_InvExc
          constructor
          · intro b s' hbi hb
            rw [show slotAt { m with
                slots := m.slots.set a (some { s with remaining_ticks := 0 }),
                log := m.log ++ [a] } b
                = ((m.slots.set a (some { s with remaining_ticks := 0 }))[b]?).join from rfl,
              List.getElem?_set_ne (fun e => hbi e.symm)] at hb
            exact hm b s' hb
          · intro s' hb
            rw [slotAt_mk_set m.slots (m.log ++ [a]) a (some { s with remaining_ticks := 0 }) hlt] at hb
            cases Option.some.inj hb
            exact ⟨hsv.1, Nat.zero_le _, hsv.2.2.2⟩
        · rw [if_neg hr]
          intro b s' hb
          by_cases hba : b = a
          · subst hba
            rw [slotAt_mk_set m.slots m.log b (some { s with remaining_ticks := s.remaining_ticks - 1 }) hlt] at hb
            cases Option.some.inj hb
            obtain ⟨hv1, hv2, hv3, hv4⟩ := hsv
            exact ⟨hv1, show 1 ≤ s.remaining_ticks - 1 by omega,
              show s.remaining_ticks - 1 ≤ s.period_ticks by omega, hv4⟩
          · rw [show slotAt { m with
                slots := m.slots.set a (some { s with remaining_ticks := s.remaining_ticks - 1 }) } b
                = ((m.slots.set a (some { s with remaining_ticks := s.remaining_ticks - 1 }))[b]?).join from rfl,
              List.getElem?_set_ne (fun e => hba e.symm)] at hb
            exact hm b s' hb
      · rw [if_neg he]
        exact hm

theorem Inv_tick (m : Mux) (hm : Inv m) : Inv (tick m) := by
  unfold tick
  generalize List.range MAX_TIMERS = l
  induction l generalizing m with
  | nil => exact hm
  | cons c l ih => exact ih (tickSlot m c) (Inv_tickSlot m c hm)

theorem Inv_modify (m : Mux) (a : Nat) (f : Slot → Option Slot) (hm : Inv m)
    (hf : ∀ s, slotInv s → ∀ t, f s = some t → slotInv t) : Inv (modifySlot m a f) := by
  cases hs : slotAt m a with
  | none => rw [slotAt_modifySlot_none f hs]; exact hm
  | some s =>
      intro b s' hb
      by_cases hba : b = a
      · subst hba
        rw [slotAt_modifySlot_self f hs] at hb
        exact hf s (hm b s hs) s' hb
      · rw [slotAt_modifySlot_ne m a b f (fun e => hba e.symm)] at hb
        exact hm b s' hb

theorem Inv_setTimer (m : Mux) (p : Nat) (kd : TimerKind) (c : Nat) (acts : List Cmd)
    (hm : Inv m) (hp : 1 ≤ p) (hc : kd = .repeatN → 1 ≤ c) :
    Inv (setTimer m p kd c acts).2 := by
  unfold setTimer
  cases hff : firstFree m with
  | none => exact hm
  | some i =>
      intro b s' hb
      by_cases hbi : b = i
      · subst hbi
        rw [show slotAt { m with slots := m.slots.set b (some ⟨true, p, p, c, kd, acts⟩) } b
            = ((m.slots.set b (some ⟨true, p, p, c, kd, acts⟩))[b]?).join from rfl] at hb
        by_cases hblt : b < m.slots.length
        · rw [join_set_self m.slots b _ hblt] at hb
          cases Option.some.inj hb
          exact ⟨hp, hp, Nat.le_refl _, hc⟩
        · rw [List.getElem?_set_self', List.getElem?_eq_none (by simpa using Nat.not_lt.mp hblt)] at hb
          cases hb
      · rw [show slotAt { m with slots := m.slots.set i (some ⟨true, p, p, c, kd, acts⟩) } b
            = ((m.slots.set i (some ⟨true, p, p, c, kd, acts⟩))[b]?).join from rfl,
          List.getElem?_set_ne (fun e => hbi e.symm)] at hb
        exact hm b s' hb

theorem Inv_mkMux : Inv mkMux := by
  intro a s h
  rw [slotAt_mkMux a] at h
  cases h

theorem Reachable_Inv (m : Mux) (hr : Reachable m) : Inv m := by
  induction hr with
  | init => exact Inv_mkMux
  | create hrm hp hc ih => exact Inv_setTimer _ _ _ _ _ ih hp hc
  | en hrm ih =>
      exact Inv_modify _ _ _ ih
        (fun s hs t ht => Option.some.inj ht ▸ (show slotInv { s with enabled := true } from hs))
  | dis hrm ih =>
      exact Inv_modify _ _ _ ih
        (fun s hs t ht => Option.some.inj ht ▸ (show slotInv { s with enabled := false } from hs))
  | del hrm ih => exact Inv_modify _ _ _ ih (fun _ _ t ht => Option.noConfusion ht)
  | res hrm ih =>
      exact Inv_modify _ _ _ ih
        (fun s hs t ht => Option.some.inj ht ▸
          (show slotInv { s with remaining_ticks := s.period_ticks } from
            ⟨hs.1, hs.1, Nat.le_refl _, hs.2.2.2⟩))
  | tk hrm ih => exact Inv_tick _ ih

end SoftTimer

namespace SoftTimer

theorem firstFreeAux_map_some (xs : List Slot) : ∀ (r : List (Option Slot)) (k : Nat),
    firstFreeAux (xs.map some ++ r) k = firstFreeAux r (k + xs.length) := by
  induction xs with
  | nil => intro r k; simp
  | cons x xs ih =>
      intro r k
      show firstFreeAux (some x :: (xs.map some ++ r)) k = _
      rw [show firstFreeAux (some x :: (xs.map some ++ r)) k
          = firstFreeAux (xs.map some ++ r) (k + 1) from rfl, ih r (k + 1)]
      congr 1
      simp
      omega

theorem firstFreeAux_replicate (c k : Nat) (hc : 0 < c) :
    firstFreeAux (List.replicate c none) k = some k := by
  cases c with
  | zero => omega
  | succ c => rfl

theorem firstFreeAux_all_some : ∀ (l : List (Option Slot)) (k : Nat),
    (∀ o ∈ l, o.isSome = true) → firstFreeAux l k = none := by
  intro l
  induction l with
  | nil => intro k _; rfl
  | cons o l ih =>
      intro k h
      cases o with
      | none =>
          have := h none (List.mem_cons_self _ _)
          simp at this
      | some s => exact ih (k + 1) (fun o ho => h o (List.mem_cons_of_mem _ ho))

theorem setTimer_full (m : Mux) (p : Nat) (kd : TimerKind) (c : Nat) (acts : List Cmd)
    (hfull : ∀ o ∈ m.slots, o.isSome = true) : setTimer m p kd c acts = (none, m) := by
  unfold setTimer firstFree
  rw [firstFreeAux_all_some m.slots 0 hfull]

theorem set_after_map (xs : List Slot) (r : List (Option Slot)) (v : Option Slot) :
    (xs.map some ++ r).set xs.length v = xs.map some ++ r.set 0 v := by
  induction xs with
  | nil => rfl
  | cons x xs ih =>
      show some x :: ((xs.map some ++ r).set xs.length v) = some x :: (xs.map some ++ r.set 0 v)
      rw [ih]

theorem createAll_go (ps : List Nat) : ∀ (xs : List Slot) (lg : List Nat),
    xs.length + ps.length ≤ MAX_TIMERS →
    ps.foldl (fun m p => (setTimer m p .repeatForever 0 []).2)
      ⟨xs.map some ++ List.replicate (MAX_TIMERS - xs.length) none, lg⟩
    = ⟨(xs ++ ps.map foreverSlot).map some
        ++ List.replicate (MAX_TIMERS - xs.length - ps.length) none, lg⟩ := by
  induction ps with
  | nil =>
      intro xs lg _
      simp
  | cons p ps ih =>
      intro xs lg h
      rw [List.foldl_cons]
      have hff : firstFree ⟨xs.map some ++ List.replicate (MAX_TIMERS - xs.length) none, lg⟩
          = some xs.length := by
        unfold firstFree
        show firstFreeAux (xs.map some ++ List.replicate (MAX_TIMERS - xs.length) none) 0 = _
        rw [firstFreeAux_map_some xs _ 0,
          firstFreeAux_replicate _ _ (by simp at h; omega), Nat.zero_add]
      have hst : (setTimer ⟨xs.map some ++ List.replicate (MAX_TIMERS - xs.length) none, lg⟩
            p .repeatForever 0 []).2
          = ⟨(xs ++ [foreverSlot p]).map some
              ++ List.replicate (MAX_TIMERS - (xs.length + 1)) none, lg⟩ := by
        unfold setTimer
        rw [hff]
        dsimp only
        congr 1
        rw [set_after_map]
        rw [show MAX_TIMERS - xs.length = (MAX_TIMERS - (xs.length + 1)) + 1 from by
          simp at h; omega]
        rw [List.replicate_succ]
        show xs.map some ++ (some (foreverSlot p) :: List.replicate (MAX_TIMERS - (xs.length + 1)) none)
          = (xs ++ [foreverSlot p]).map some ++ List.replicate (MAX_TIMERS - (xs.length + 1)) none
        simp
      have ih' := ih (xs ++ [foreverSlot p]) lg (by simp; simp at h; omega)
      rw [show (xs ++ [foreverSlot p]).length = xs.length + 1 from by simp] at ih'
      rw [hst, ih']
      have e1 : (xs ++ [foreverSlot p]) ++ ps.map foreverSlot = xs ++ (p :: ps).map foreverSlot := by
        simp
      have e2 : MAX_TIMERS - (xs.length + 1) - ps.length
          = MAX_TIMERS - xs.length - (p :: ps).length := by
        simp
        omega
      rw [e1, e2]

theorem createAll_eq (ps : List Nat) (h : ps.length ≤ MAX_TIMERS) :
    createAll ps
      = ⟨(ps.map foreverSlot).map some ++ List.replicate (MAX_TIMERS - ps.length) none, []⟩ := by
  have hgo := createAll_go ps [] [] (by simpa using h)
  unfold createAll mkMux
  simpa using hgo

theorem slotAt_createAll (ps : List Nat) (h : ps.length ≤ MAX_TIMERS) (i p : Nat)
    (hi : ps[i]? = some p) : slotAt (createAll ps) i = some (foreverSlot p) := by
  have hilt : i < ps.length := (List.getElem?_eq_some.mp hi).1
  rw [createAll_eq ps h]
  show (((ps.map foreverSlot).map some ++ List.replicate (MAX_TIMERS - ps.length) none)[i]?).join = _
  rw [List.getElem?_append_left (by simpa using hilt)]
  simp [hi]

theorem allEmpty_createAll (ps : List Nat) (h : ps.length ≤ MAX_TIMERS) :
    allEmpty (createAll ps) = true := by
  rw [createAll_eq ps h]
  refine List.all_eq_true.mpr (fun o ho => ?_)
  rcases List.mem_append.mp ho with h1 | h2
  · obtain ⟨q, hq, rfl⟩ := List.mem_map.mp h1
    obtain ⟨p', hp', rfl⟩ := List.mem_map.mp hq
    rfl
  · rw [List.eq_of_mem_replicate h2]
    rfl

theorem log_createAll (ps : List Nat) (h : ps.length ≤ MAX_TIMERS) : (createAll ps).log = [] := by
  rw [createAll_eq ps h]

end SoftTimer

namespace SoftTimer

theorem modifySlot_none_frame (m : Mux) (a : Nat) (f : Slot → Option Slot) (j : Nat)
    (h : slotAt m j = none) : slotAt (modifySlot m a f) j = none := by
  by_cases haj : a = j
  · subst haj
    rw [slotAt_modifySlot_none f h]
    exact h
  · rw [slotAt_modifySlot_ne m a j f haj]
    exact h

theorem applyCmd_none (m : Mux) (c : Cmd) (j : Nat) (h : slotAt m j = none) :
    slotAt (applyCmd m c) j = none := by
  cases c <;> exact modifySlot_none_frame m _ _ j h

theorem applyCmds_none (cs : List Cmd) : ∀ (m : Mux) (j : Nat), slotAt m j = none →
    slotAt (applyCmds m cs) j = none := by
  induction cs with
  | nil => intro m j h; exact h
  | cons c cs ih => intro m j h; exact ih (applyCmd m c) j (applyCmd_none m c j h)

theorem tickSlot_none_pres (m : Mux) (a j : Nat) (h : slotAt m j = none) :
    slotAt (tickSlot m a) j = none ∧ (tickSlot m a).log.count j = m.log.count j := by
  constructor
  · unfold tickSlot
    cases hs : slotAt m a with
    | none => exact h
    | some s =>
        have haj : a ≠ j := fun e => by rw [e, h] at hs; cases hs
        dsimp only
        by_cases he : s.enabled = true
        · rw [if_pos he]
          by_cases hr : s.remaining_ticks - 1 = 0
          · rw [if_pos hr]
            apply modifySlot_none_frame
            apply applyCmds_none
            show ((m.slots.set a (some { s with remaining_ticks := 0 }))[j]?).join = none
            rw [List.getElem?_set_ne haj]
            exact h
          · rw [if_neg hr]
            show ((m.slots.set a (some { s with remaining_ticks := s.remaining_ticks - 1 }))[j]?).join = none
            rw [List.getElem?_set_ne haj]
            exact h
        · rw [if_neg he]
          exact h
  · rw [tickSlot_log, List.count_append]
    cases hs : slotAt m a with
    | none =>
        rw [show firesOpt none = false from rfl, if_neg (by simp)]
        rfl
    | some s =>
        have haj : a ≠ j := fun e => by rw [e, h] at hs; cases hs
        by_cases hf : firesOpt (some s) = true
        · rw [if_pos hf]
          have hja : ¬(j = a) := fun e => haj e.symm
          simp [List.count_singleton', hja]
        · rw [if_neg hf]
          rfl

theorem tick_none (m : Mux) (j : Nat) (h : slotAt m j = none) :
    slotAt (tick m) j = none ∧ (tick m).log.count j = m.log.count j := by
  unfold tick
  generalize List.range MAX_TIMERS = l
  induction l generalizing m with
  | nil => exact ⟨h, rfl⟩
  | cons c l ih =>
      obtain ⟨h1, h2⟩ := tickSlot_none_pres m c j h
      obtain ⟨g1, g2⟩ := ih (tickSlot m c) h1
      exact ⟨g1, by rw [List.foldl_cons, g2, h2]⟩

end SoftTimer

namespace SoftTimer

/-- Claim C2: when all 16 slots are occupied, a further create call returns the
capacity-exhaustion sentinel (none, not an exception) instead of a slot id, and
the failed call leaves the whole multiplexer state, in particular every
existing slot, unchanged. -/
theorem claim_C2 (m : Mux) (p : Nat) (kd : TimerKind) (c : Nat) (acts : List Cmd)
    (hlen : m.slots.length = MAX_TIMERS) (hfull : ∀ o ∈ m.slots, o.isSome = true) :
    setTimer m p kd c acts = (none, m)
    ∧ ∀ a, slotAt (setTimer m p kd c acts).2 a = slotAt m a := by
  have h := setTimer_full m p kd c acts hfull
  exact ⟨h, fun a => by rw [h]⟩

theorem claim_C2_witness :
    (createAll (List.replicate 16 1)).slots.length = MAX_TIMERS
    ∧ (∀ o ∈ (createAll (List.replicate 16 1)).slots, o.isSome = true)
    ∧ setTimer (createAll (List.replicate 16 1)) 7 .repeatForever 0 []
        = (none, createAll (List.replicate 16 1)) :=
  ⟨by decide, by decide,
    (claim_C2 (createAll (List.replicate 16 1)) 7 .repeatForever 0 [] (by decide) (by decide)).1⟩

/-- Claim C4: within a single tick() call whose callbacks issue no control
commands, the invoked slots are exactly those that become due on that tick,
appended to the log in ascending slot-index order (the filter of the
ascending index range), hence for due slots i < j the callback of i completes
before the callback of j starts, deterministically. -/
theorem claim_C4 (m : Mux) (ha : allEmpty m = true) :
    (tick m).log = m.log ++ (List.range MAX_TIMERS).filter (fun a => firesOpt (slotAt m a)) :=
  tick_log m ha

theorem claim_C4_witness :
    allEmpty (createAll [1, 1]) = true
    ∧ (tick (createAll [1, 1])).log
        = (createAll [1, 1]).log
          ++ (List.range MAX_TIMERS).filter (fun a => firesOpt (slotAt (createAll [1, 1]) a)) :=
  ⟨by decide, claim_C4 (createAll [1, 1]) (by decide)⟩

/-- Claim C8: each of enable, disable, delete and restart is a no-op leaving
the entire multiplexer state unchanged whenever the slot id is out of range or
refers to a free (already deleted) slot; in particular delete on an already
free slot is not an error. -/
theorem claim_C8 (m : Mux) (i : Nat) (h : slotAt m i = none) :
    enableTimer m i = m ∧ disableTimer m i = m ∧ deleteTimer m i = m ∧ restartTimer m i = m :=
  ⟨slotAt_modifySlot_none _ h, slotAt_modifySlot_none _ h,
    slotAt_modifySlot_none _ h, slotAt_modifySlot_none _ h⟩

theorem claim_C8_witness :
    slotAt (createAll [5]) 7 = none
    ∧ deleteTimer (createAll [5]) 7 = createAll [5]
    ∧ slotAt (createAll [5]) 20 = none
    ∧ enableTimer (createAll [5]) 20 = createAll [5] :=
  ⟨by decide, (claim_C8 (createAll [5]) 7 (by decide)).2.2.1,
    by decide, (claim_C8 (createAll [5]) 20 (by decide)).1⟩

end SoftTimer

/-- Claim C9 (amended): setFrequency and the wrappers setInterval,
attachInterrupt and attachInterruptInterval report success or failure as a
boolean return value, where failure means the timer object was constructed
with an invalid hardware timer number (not 0-3); the requested frequency or
period is never range-checked and has no effect on the result. -/
theorem claim_C9 (t : ESP32.TimerState) (freq : ℚ) (interval cb : Nat) :
    (ESP32.setFrequency t freq cb).1 = decide (t.timerNo < ESP32.MAX_ESP32_NUM_TIMERS)
    ∧ (ESP32.setInterval t interval cb).1 = decide (t.timerNo < ESP32.MAX_ESP32_NUM_TIMERS)
    ∧ (ESP32.attachInterrupt t freq cb).1 = decide (t.timerNo < ESP32.MAX_ESP32_NUM_TIMERS)
    ∧ (ESP32.attachInterruptInterval t interval cb).1
        = decide (t.timerNo < ESP32.MAX_ESP32_NUM_TIMERS) := by
  have h : ∀ q : ℚ, (ESP32.setFrequency t q cb).1
      = decide (t.timerNo < ESP32.MAX_ESP32_NUM_TIMERS) := by
    intro q
    unfold ESP32.setFrequency
    by_cases hlt : t.timerNo < ESP32.MAX_ESP32_NUM_TIMERS
    · rw [if_pos hlt]
      simp [hlt]
    · rw [if_neg hlt]
      simp [hlt]
  exact ⟨h freq, h _, h freq, h _⟩

/-- Claim C9, counterexample to the claim as stated: a timer constructed with
the invalid number 5 fails setFrequency at 1000 Hz, a frequency squarely
inside the hardware representable range (the 1 MHz base gives a counter value
of 1000, far below 2 to the 64); a timer constructed with the valid number 0
succeeds at 100 MHz, a frequency outside the representable range (the period
is below one counter tick, the computed counter value is 0).  Failure thus
tracks the validity of the timer number, not the frequency range. -/
theorem claim_C9_counterexample :
    (ESP32.setFrequency (ESP32.mkTimer 5) 1000 0).1 = false
    ∧ (ESP32.setFrequency (ESP32.mkTimer 0) 100000000 0).1 = true
    ∧ (ESP32.setFrequency (ESP32.mkTimer 0) 100000000 0).2.timerCount = 0 := by
  refine ⟨rfl, rfl, ?_⟩
  show ESP32.ratTruncToUInt64 (((ESP32.TIMER_BASE_CLK : ℚ) / (ESP32.TIMER_DIVIDER : ℚ)) / 100000000) = 0
  have e : ((ESP32.TIMER_BASE_CLK : ℚ) / (ESP32.TIMER_DIVIDER : ℚ)) / 100000000 = 1 / 100 := by
    norm_num [ESP32.TIMER_BASE_CLK, ESP32.TIMER_DIVIDER]
  rw [e]
  have hn : ((1 : ℚ) / 100).num = 1 := by norm_num
  have hd : ((1 : ℚ) / 100).den = 100 := by norm_num
  rw [ESP32.ratTruncToUInt64, hn, hd]
  decide

/-- Claim C10: on ESP32TimerInterrupt the interval-based and frequency-based
arming paths are one and the same function: setInterval and
attachInterruptInterval both return exactly setFrequency(1000000 / interval)
with identical side effects, and attachInterrupt is identical to
setFrequency. -/
theorem claim_C10 (t : ESP32.TimerState) (i : Nat) (f : ℚ) (cb : Nat) :
    ESP32.setInterval t i cb = ESP32.setFrequency t ((1000000 : ℚ) / (i : ℚ)) cb
    ∧ ESP32.attachInterruptInterval t i cb = ESP32.setFrequency t ((1000000 : ℚ) / (i : ℚ)) cb
    ∧ ESP32.attachInterrupt t f cb = ESP32.setFrequency t f cb :=
  ⟨rfl, rfl, rfl⟩

namespace SoftTimer

/-- Claim C1: for slots created with kind repeat-forever and periods given by
the list ps (at most 16 of them), with no disable or delete occurring, after
exactly k calls to tick() the callback of slot i has been invoked exactly
floor(k / p_i) times. -/
theorem claim_C1 (ps : List Nat) (i p k : Nat)
    (h16 : ps.length ≤ MAX_TIMERS) (hpos : ∀ a ∈ ps, 1 ≤ a)
    (hip : ps[i]? = some p) :
    (tickN k (createAll ps)).log.count i = k / p := by
  have hilt : i < ps.length := (List.getElem?_eq_some.mp hip).1
  have hsl : slotAt (createAll ps) i = some (foreverSlot p) := slotAt_createAll ps h16 i p hip
  have hae : allEmpty (createAll ps) = true := allEmpty_createAll ps h16
  have hp : 1 ≤ p := hpos p (List.getElem?_mem hip)
  rw [tickN_count k (createAll ps) hae i (by omega), log_createAll ps h16, hsl]
  have hform := (forever_iter k (foreverSlot p) rfl rfl hp (Nat.le_refl _)).2
  rw [show (foreverSlot p).period_ticks = p from rfl,
    show (foreverSlot p).remaining_ticks = p from rfl, Nat.sub_self, Nat.add_zero] at hform
  rw [hform]
  simp

theorem claim_C1_witness :
    (∀ a ∈ ([2000, 5000] : List Nat), 1 ≤ a)
    ∧ (tickN 10000 (createAll [2000, 5000])).log.count 0 = 5
    ∧ (tickN 10000 (createAll [2000, 5000])).log.count 1 = 2 := by
  refine ⟨by decide, ?_, ?_⟩
  · have h := claim_C1 [2000, 5000] 0 2000 10000 (by decide) (by decide) (by decide)
    rw [show (10000 : Nat) / 2000 = 5 from by norm_num] at h
    exact h
  · have h := claim_C1 [2000, 5000] 1 5000 10000 (by decide) (by decide) (by decide)
    rw [show (10000 : Nat) / 5000 = 2 from by norm_num] at h
    exact h

/-- Claim C5: a slot of kind repeat-N-times with N at least 1 has its callback
invoked exactly N times over any sufficiently long sequence of tick() calls
(any k at least N times the period), after which the slot is marked free and,
the equations holding for every such k, never fires again absent new explicit
calls. -/
theorem claim_C5 (m : Mux) (i n p k : Nat) (s : Slot)
    (hae : allEmpty m = true) (hi : i < MAX_TIMERS) (hs : slotAt m i = some s)
    (hen : s.enabled = true) (hkd : s.kind = .repeatN)
    (hrem : s.remaining_ticks = p) (hper : s.period_ticks = p)
    (hinv : s.remaining_invocations = n)
    (hp : 1 ≤ p) (hn : 1 ≤ n) (hk : n * p ≤ k) :
    (tickN k m).log.count i = m.log.count i + n ∧ slotAt (tickN k m) i = none := by
  obtain ⟨hstate, hcount⟩ := repeatN_iter k s hen hkd (by omega) (by omega) (by omega)
  rw [hrem, hper, hinv] at hstate hcount
  rw [Nat.sub_self, Nat.add_zero] at hstate hcount
  have hdiv : n ≤ k / p := (Nat.le_div_iff_mul_le (by omega)).mpr (by omega)
  constructor
  · rw [tickN_count k m hae i hi, hs, hcount]
    congr 1
    omega
  · rw [tickN_slotAt k m hae i hi, hs, hstate, if_neg (by omega)]

theorem claim_C5_witness :
    allEmpty ((setTimer mkMux 3 .repeatN 2 []).2) = true
    ∧ slotAt ((setTimer mkMux 3 .repeatN 2 []).2) 0 = some ⟨true, 3, 3, 2, .repeatN, []⟩
    ∧ (tickN 7 ((setTimer mkMux 3 .repeatN 2 []).2)).log.count 0
        = ((setTimer mkMux 3 .repeatN 2 []).2).log.count 0 + 2
    ∧ slotAt (tickN 7 ((setTimer mkMux 3 .repeatN 2 []).2)) 0 = none := by
  have h := claim_C5 ((setTimer mkMux 3 .repeatN 2 []).2) 0 2 3 7 ⟨true, 3, 3, 2, .repeatN, []⟩
    (by decide) (by decide) (by decide) rfl rfl rfl rfl rfl (by decide) (by decide) (by decide)
  exact ⟨by decide, by decide, h.1, h.2⟩

/-- Claim C7: at every reachable state every live slot has remaining_ticks in
the interval [0, period_ticks] (with a positive period), and a tick() call
decrements the countdown of an enabled, not-yet-due slot by exactly one unit
(when callbacks issue no commands that could overwrite it mid-scan). -/
theorem claim_C7 (m : Mux) (i : Nat) (s : Slot) (hr : Reachable m) (hs : slotAt m i = some s) :
    s.remaining_ticks ≤ s.period_ticks ∧ 1 ≤ s.period_ticks
    ∧ (allEmpty m = true → s.enabled = true → ¬(s.remaining_ticks - 1 = 0) → i < MAX_TIMERS →
        slotAt (tick m) i = some { s with remaining_ticks := s.remaining_ticks - 1 }) := by
  have hinv := Reachable_Inv m hr i s hs
  refine ⟨hinv.2.2.1, hinv.1, ?_⟩
  intro hae hen hfire hi
  rw [tick_slotAt m hae i hi, hs]
  simp [stepOpt, hen, hfire]

theorem claim_C7_witness :
    slotAt ((setTimer mkMux 5 .repeatForever 0 []).2) 0 = some ⟨true, 5, 5, 0, .repeatForever, []⟩
    ∧ (⟨true, 5, 5, 0, .repeatForever, []⟩ : Slot).remaining_ticks
        ≤ (⟨true, 5, 5, 0, .repeatForever, []⟩ : Slot).period_ticks
    ∧ 1 ≤ (⟨true, 5, 5, 0, .repeatForever, []⟩ : Slot).period_ticks
    ∧ (allEmpty ((setTimer mkMux 5 .repeatForever 0 []).2) = true →
        (⟨true, 5, 5, 0, .repeatForever, []⟩ : Slot).enabled = true →
        ¬((⟨true, 5, 5, 0, .repeatForever, []⟩ : Slot).remaining_ticks - 1 = 0) →
        0 < MAX_TIMERS →
        slotAt (tick ((setTimer mkMux 5 .repeatForever 0 []).2)) 0
          = some ⟨true, 5, 4, 0, .repeatForever, []⟩) := by
  have h := claim_C7 ((setTimer mkMux 5 .repeatForever 0 []).2) 0 ⟨true, 5, 5, 0, .repeatForever, []⟩
    (Reachable.create Reachable.init (by decide) (by decide)) (by decide)
  exact ⟨by decide, h.1, h.2.1, h.2.2⟩

end SoftTimer

namespace SoftTimer

theorem allEmpty_modifySlot (m : Mux) (a : Nat) (f : Slot → Option Slot)
    (hf : ∀ s, actionsEmptyO (some s) = true → actionsEmptyO (f s) = true)
    (ha : allEmpty m = true) : allEmpty (modifySlot m a f) = true := by
  rw [allEmpty_iff] at ha ⊢
  intro b
  by_cases hba : b = a
  · subst hba
    cases hs : slotAt m b with
    | none => rw [slotAt_modifySlot_none f hs]; exact ha b
    | some s =>
        rw [slotAt_modifySlot_self f hs]
        exact hf s (hs ▸ ha b)
  · rw [slotAt_modifySlot_ne m a b f (fun e => hba e.symm)]
    exact ha b

theorem stepOpt_disabled (s : Slot) (h : s.enabled = false) : stepOpt (some s) = some s := by
  simp [stepOpt, h]

/-- Claim C6: disable clears only the enabled flag of a live slot, leaving
remaining_ticks and the rest of its configuration unchanged and leaving every
other slot alone; the countdown stays frozen at r across any number d of
ticks while disabled; re-enabling restores the slot exactly; and the slot
next fires exactly r ticks after re-enabling: strictly fewer than r ticks add
no invocation, r ticks add exactly one. -/
theorem claim_C6 (m : Mux) (i l r p d k : Nat) (s : Slot)
    (hae : allEmpty m = true) (hi : i < MAX_TIMERS)
    (hs : slotAt m i = some s) (hen : s.enabled = true)
    (hkd : s.kind = .repeatForever)
    (hrem : s.remaining_ticks = r) (hper : s.period_ticks = p)
    (hr1 : 1 ≤ r) (hrp : r ≤ p) (hli : l ≠ i) (hkr : k < r) :
    slotAt (disableTimer m i) i = some { s with enabled := false }
    ∧ slotAt (disableTimer m i) l = slotAt m l
    ∧ slotAt (tickN d (disableTimer m i)) i = some { s with enabled := false }
    ∧ slotAt (enableTimer (tickN d (disableTimer m i)) i) i = some s
    ∧ (tickN k (enableTimer (tickN d (disableTimer m i)) i)).log.count i
        = (tickN d (disableTimer m i)).log.count i
    ∧ (tickN r (enableTimer (tickN d (disableTimer m i)) i)).log.count i
        = (tickN d (disableTimer m i)).log.count i + 1 := by
  have hact : s.actions = [] := by
    have := (allEmpty_iff m).mp hae i
    rw [hs] at this
    exact actions_empty_of s this
  have hae1 : allEmpty (disableTimer m i) = true :=
    allEmpty_modifySlot m i _ (fun t ht => ht) hae
  have c1 : slotAt (disableTimer m i) i = some { s with enabled := false } :=
    slotAt_modifySlot_self _ hs
  have c2 : slotAt (disableTimer m i) l = slotAt m l :=
    slotAt_modifySlot_ne m i l _ (fun e => hli e.symm)
  have hfix : stepOpt (some { s with enabled := false }) = some { s with enabled := false } :=
    stepOpt_disabled _ rfl
  have c3 : slotAt (tickN d (disableTimer m i)) i = some { s with enabled := false } := by
    rw [tickN_slotAt d (disableTimer m i) hae1 i hi, c1, Function.iterate_fixed hfix d]
  have haed : allEmpty (tickN d (disableTimer m i)) = true := allEmpty_tickN d _ hae1
  have c4 : slotAt (enableTimer (tickN d (disableTimer m i)) i) i = some s := by
    rw [show enableTimer (tickN d (disableTimer m i)) i
        = modifySlot (tickN d (disableTimer m i)) i (fun t => some { t with enabled := true })
      from rfl, slotAt_modifySlot_self _ c3]
    show some { s with enabled := true } = some s
    rw [← hen]
  have haee : allEmpty (enableTimer (tickN d (disableTimer m i)) i) = true :=
    allEmpty_modifySlot _ i _ (fun t ht => ht) haed
  have hlog : (enableTimer (tickN d (disableTimer m i)) i).log
      = (tickN d (disableTimer m i)).log := modifySlot_log _ _ _
  have hfc : ∀ j : Nat, fireCount j (some s) = (j + (p - r)) / p := by
    intro j
    have h := (forever_iter j s hen hkd (by omega) (by omega)).2
    rw [hrem, hper] at h
    exact h
  refine ⟨c1, c2, c3, c4, ?_, ?_⟩
  · rw [tickN_count k _ haee i hi, c4, hlog, hfc k, Nat.div_eq_of_lt (by omega), Nat.add_zero]
  · rw [tickN_count r _ haee i hi, c4, hlog, hfc r,
      show r + (p - r) = p from by omega, Nat.div_self (by omega)]

end SoftTimer

namespace SoftTimer

set_option maxRecDepth 10000 in
theorem claim_C6_witness :
    allEmpty (tickN 2 (createAll [5])) = true
    ∧ slotAt (tickN 2 (createAll [5])) 0 = some ⟨true, 5, 3, 0, .repeatForever, []⟩
    ∧ slotAt (disableTimer (tickN 2 (createAll [5])) 0) 0
        = some ⟨false, 5, 3, 0, .repeatForever, []⟩
    ∧ slotAt (tickN 4 (disableTimer (tickN 2 (createAll [5])) 0)) 0
        = some ⟨false, 5, 3, 0, .repeatForever, []⟩
    ∧ slotAt (enableTimer (tickN 4 (disableTimer (tickN 2 (createAll [5])) 0)) 0) 0
        = some ⟨true, 5, 3, 0, .repeatForever, []⟩
    ∧ (tickN 2 (enableTimer (tickN 4 (disableTimer (tickN 2 (createAll [5])) 0)) 0)).log.count 0
        = (tickN 4 (disableTimer (tickN 2 (createAll [5])) 0)).log.count 0
    ∧ (tickN 3 (enableTimer (tickN 4 (disableTimer (tickN 2 (createAll [5])) 0)) 0)).log.count 0
        = (tickN 4 (disableTimer (tickN 2 (createAll [5])) 0)).log.count 0 + 1 := by
  have h := claim_C6 (tickN 2 (createAll [5])) 0 1 3 5 4 2 ⟨true, 5, 3, 0, .repeatForever, []⟩
    (by decide) (by decide) (by decide) rfl rfl rfl rfl (by decide) (by decide) (by decide)
    (by decide)
  exact ⟨by decide, by decide, h.1, h.2.2.1, h.2.2.2.1, h.2.2.2.2.1, h.2.2.2.2.2⟩

end SoftTimer

namespace SoftTimer

theorem deleteTimer_self (m : Mux) (j : Nat) : slotAt (deleteTimer m j) j = none := by
  cases hs : slotAt m j with
  | none =>
      rw [show deleteTimer m j = m from slotAt_modifySlot_none _ hs]
      exact hs
  | some s => exact slotAt_modifySlot_self _ hs

theorem range_split (n i : Nat) (h : i < n) :
    List.range n = List.range' 0 i ++ i :: List.range' (i + 1) (n - i - 1) := by
  rw [List.range_eq_range']
  have h1 : List.range' 0 i ++ List.range' (0 + i) (n - i) = List.range' 0 ((n - i) + i) :=
    List.range'_append_1 0 i (n - i)
  rw [show (n - i) + i = n from by omega] at h1
  rw [← h1, Nat.zero_add]
  congr 1
  rw [show n - i = (n - i - 1) + 1 from by omega]
  exact List.range'_succ i (n - i - 1) 1

theorem tickSlot_fire_delete (m : Mux) (i j : Nat) (s : Slot)
    (hs : slotAt m i = some s) (hen : s.enabled = true) (hr : s.remaining_ticks - 1 = 0)
    (hact : s.actions = [Cmd.deleteT j]) :
    (tickSlot m i).log = m.log ++ [i]
    ∧ slotAt (tickSlot m i) j = none
    ∧ (∀ b, b ≠ i → b ≠ j → (tickSlot m i).slots[b]? = m.slots[b]?) := by
  have heq : tickSlot m i
      = reload (deleteTimer
          ⟨m.slots.set i (some { s with remaining_ticks := 0 }), m.log ++ [i]⟩ j) i := by
    unfold tickSlot
    rw [hs]
    dsimp only
    rw [if_pos hen, if_pos hr, hact]
    rfl
  refine ⟨?_, ?_, ?_⟩
  · rw [heq, reload_log]
    show (modifySlot _ j _).log = _
    rw [modifySlot_log]
  · rw [heq]
    exact modifySlot_none_frame _ i _ j (deleteTimer_self _ j)
  · intro b hbi hbj
    rw [heq]
    show (modifySlot _ i _).slots[b]? = _
    rw [modifySlot_getElem_ne _ i b _ (fun e => hbi e.symm)]
    show (modifySlot _ j _).slots[b]? = _
    rw [modifySlot_getElem_ne _ j b _ (fun e => hbj e.symm)]
    exact List.getElem?_set_ne (fun e => hbi e.symm)

end SoftTimer

namespace SoftTimer

/-- Claim C3: when the callback of due slot i deletes slot j, its own slot
(j = i) or one not yet visited in the current scan (j > i), while every other
callback issues no commands, then within that tick() every other slot l is
invoked exactly once if due and not at all otherwise (no skip, no double
invocation), slot j is free afterwards, and the next tick() reflects the
deletion: slot j does not fire again. -/
theorem claim_C3 (m : Mux) (i j l : Nat) (s : Slot)
    (hi : i < MAX_TIMERS)
    (hs : slotAt m i = some s) (hen : s.enabled = true) (hrem : s.remaining_ticks = 1)
    (hact : s.actions = [Cmd.deleteT j]) (hij : i ≤ j)
    (hothers : ∀ a, a < MAX_TIMERS → a ≠ i → actionsEmptyO (slotAt m a) = true)
    (hlj : l ≠ j) :
    (tick m).log.count l
      = m.log.count l + (if l < MAX_TIMERS ∧ firesOpt (slotAt m l) = true then 1 else 0)
    ∧ slotAt (tick m) j = none
    ∧ (tick (tick m)).log.count j = (tick m).log.count j := by
  have hsplit := range_split MAX_TIMERS i hi
  have htick : tick m
      = (List.range' (i + 1) (MAX_TIMERS - i - 1)).foldl tickSlot
          (tickSlot ((List.range' 0 i).foldl tickSlot m) i) := by
    unfold tick
    rw [hsplit, List.foldl_append, List.foldl_cons]
  have hndA : (List.range' 0 i).Nodup := List.nodup_range' 0 i 1 (by norm_num)
  have hmemA : ∀ a : Nat, a ∈ List.range' 0 i ↔ a < i := by
    intro a
    rw [List.mem_range'_1]
    omega
  have hactA : ∀ a ∈ List.range' 0 i, actionsEmptyO (slotAt m a) = true := by
    intro a ha
    have hai : a < i := (hmemA a).mp ha
    exact hothers a (by omega) (by omega)
  obtain ⟨A1, A2, A3⟩ := foldl_tickSlot (List.range' 0 i) m hndA hactA
  have hAframe : ∀ b, ¬(b < i) → slotAt ((List.range' 0 i).foldl tickSlot m) b = slotAt m b := by
    intro b hb
    unfold slotAt
    rw [A1 b (fun hmem => hb ((hmemA b).mp hmem))]
  have hAi : slotAt ((List.range' 0 i).foldl tickSlot m) i = some s := by
    rw [hAframe i (by omega)]
    exact hs
  obtain ⟨B1, B2, B3⟩ := tickSlot_fire_delete ((List.range' 0 i).foldl tickSlot m) i j s
    hAi hen (by omega) hact
  have hBframe : ∀ b, b ≠ i → b ≠ j →
      slotAt (tickSlot ((List.range' 0 i).foldl tickSlot m) i) b
        = slotAt ((List.range' 0 i).foldl tickSlot m) b := by
    intro b h1 h2
    unfold slotAt
    rw [B3 b h1 h2]
  have hCsrc : ∀ b, b ≠ i → b ≠ j → ¬(b < i) →
      slotAt (tickSlot ((List.range' 0 i).foldl tickSlot m) i) b = slotAt m b := by
    intro b h1 h2 h3
    rw [hBframe b h1 h2, hAframe b h3]
  have hndC : (List.range' (i + 1) (MAX_TIMERS - i - 1)).Nodup :=
    List.nodup_range' _ _ 1 (by norm_num)
  have hmemC : ∀ a : Nat, a ∈ List.range' (i + 1) (MAX_TIMERS - i - 1)
      ↔ (i + 1 ≤ a ∧ a < MAX_TIMERS) := by
    intro a
    rw [List.mem_range'_1]
    omega
  have hactC : ∀ a ∈ List.range' (i + 1) (MAX_TIMERS - i - 1),
      actionsEmptyO (slotAt (tickSlot ((List.range' 0 i).foldl tickSlot m) i) a) = true := by
    intro a ha
    obtain ⟨ha1, ha2⟩ := (hmemC a).mp ha
    by_cases haj : a = j
    · subst haj
      rw [B2]
      rfl
    · rw [hCsrc a (by omega) haj (by omega)]
      exact hothers a ha2 (by omega)
  obtain ⟨Cw1, Cw2, Cw3⟩ :=
    foldl_tickSlot (List.range' (i + 1) (MAX_TIMERS - i - 1))
      (tickSlot ((List.range' 0 i).foldl tickSlot m) i) hndC hactC
  have c2 : slotAt (tick m) j = none := by
    rw [htick]
    by_cases hjC : j ∈ List.range' (i + 1) (MAX_TIMERS - i - 1)
    · rw [Cw2 j hjC, B2]
      rfl
    · unfold slotAt
      rw [Cw1 j hjC]
      exact B2
  have hlog : (tick m).log
      = m.log ++ (List.range' 0 i).filter (fun a => firesOpt (slotAt m a))
        ++ [i]
        ++ (List.range' (i + 1) (MAX_TIMERS - i - 1)).filter
            (fun a => firesOpt (slotAt (tickSlot ((List.range' 0 i).foldl tickSlot m) i) a)) := by
    rw [htick, Cw3, B1, A3]
  have c1 : (tick m).log.count l
      = m.log.count l + (if l < MAX_TIMERS ∧ firesOpt (slotAt m l) = true then 1 else 0) := by
    rw [hlog, List.count_append, List.count_append, List.count_append,
      count_filter_nodup _ hndA _ l, count_filter_nodup _ hndC _ l, List.count_singleton']
    by_cases hli : l = i
    · subst hli
      have hfl : firesOpt (slotAt m l) = true := by
        rw [hs]
        simp [firesOpt, hen, hrem]
      simp [hmemA, hmemC, hfl, hi]
    · have hil : ¬(i = l) := fun e => hli e.symm
      by_cases hlt : l < i
      · have hl16 : l < MAX_TIMERS := by omega
        have hnoC : ¬(i + 1 ≤ l) := by omega
        by_cases hf : firesOpt (slotAt m l) = true
        · simp [hmemA, hmemC, hlt, hnoC, hli, hil, hl16, hf]
        · simp [hmemA, hmemC, hlt, hnoC, hli, hil, hl16, hf]
      · by_cases hl16 : l < MAX_TIMERS
        · have hmeml : i + 1 ≤ l := by omega
          have hfires : slotAt (tickSlot ((List.range' 0 i).foldl tickSlot m) i) l
              = slotAt m l := hCsrc l hli hlj hlt
          by_cases hf : firesOpt (slotAt m l) = true
          · simp [hmemA, hmemC, hlt, hli, hil, hl16, hmeml, hfires, hf]
          · simp [hmemA, hmemC, hlt, hli, hil, hl16, hmeml, hfires, hf]
        · simp [hmemA, hmemC, hlt, hli, hil, hl16]
  exact ⟨c1, c2, (tick_none (tick m) j c2).2⟩

end SoftTimer

namespace SoftTimer

set_option maxRecDepth 10000 in
theorem claim_C3_witness :
    slotAt (⟨[some ⟨true, 1, 1, 0, .repeatForever, [Cmd.deleteT 2]⟩,
              some ⟨true, 1, 1, 0, .repeatForever, []⟩,
              some ⟨true, 2, 2, 0, .repeatForever, []⟩], []⟩ : Mux) 0
      = some ⟨true, 1, 1, 0, .repeatForever, [Cmd.deleteT 2]⟩
    ∧ ((tick (⟨[some ⟨true, 1, 1, 0, .repeatForever, [Cmd.deleteT 2]⟩,
              some ⟨true, 1, 1, 0, .repeatForever, []⟩,
              some ⟨true, 2, 2, 0, .repeatForever, []⟩], []⟩ : Mux)).log.count 1
        = (⟨[some ⟨true, 1, 1, 0, .repeatForever, [Cmd.deleteT 2]⟩,
              some ⟨true, 1, 1, 0, .repeatForever, []⟩,
              some ⟨true, 2, 2, 0, .repeatForever, []⟩], []⟩ : Mux).log.count 1
          + (if 1 < MAX_TIMERS ∧ firesOpt (slotAt (⟨[some ⟨true, 1, 1, 0, .repeatForever, [Cmd.deleteT 2]⟩,
              some ⟨true, 1, 1, 0, .repeatForever, []⟩,
              some ⟨true, 2, 2, 0, .repeatForever, []⟩], []⟩ : Mux) 1) = true then 1 else 0)
      ∧ slotAt (tick (⟨[some ⟨true, 1, 1, 0, .repeatForever, [Cmd.deleteT 2]⟩,
              some ⟨true, 1, 1, 0, .repeatForever, []⟩,
              some ⟨true, 2, 2, 0, .repeatForever, []⟩], []⟩ : Mux)) 2 = none
      ∧ (tick (tick (⟨[some ⟨true, 1, 1, 0, .repeatForever, [Cmd.deleteT 2]⟩,
              some ⟨true, 1, 1, 0, .repeatForever, []⟩,
              some ⟨true, 2, 2, 0, .repeatForever, []⟩], []⟩ : Mux))).log.count 2
        = (tick (⟨[some ⟨true, 1, 1, 0, .repeatForever, [Cmd.deleteT 2]⟩,
              some ⟨true, 1, 1, 0, .repeatForever, []⟩,
              some ⟨true, 2, 2, 0, .repeatForever, []⟩], []⟩ : Mux)).log.count 2) := by
  refine ⟨by decide, ?_⟩
  exact claim_C3 (⟨[some ⟨true, 1, 1, 0, .repeatForever, [Cmd.deleteT 2]⟩,
              some ⟨true, 1, 1, 0, .repeatForever, []⟩,
              some ⟨true, 2, 2, 0, .repeatForever, []⟩], []⟩ : Mux) 0 2 1
    ⟨true, 1, 1, 0, .repeatForever, [Cmd.deleteT 2]⟩
    (by decide) (by decide) rfl rfl rfl (by decide) (by decide) (by decide)

end SoftTimer
